import Mathlib

/-!
Verification of the Morse translator core (codec + audio scheduler).

JavaScript strings are modelled as `List Char`; JavaScript numbers as `ℚ`.
The codec (`morseCodec.js` / `morseData.js`) and the audio scheduler
(`morsePlayer.js`) are shallowly embedded below; theorems at the end settle
the specification claims.
-/

namespace Morse

/-- Coercion helper: the character list of a string literal. -/
def chars (s : String) : List Char := s.data

/-- Whitespace test matching the ASCII part of the JavaScript `\s` class and
`String.prototype.trim` (space, tab, newline, carriage return, vertical tab,
form feed).  All inputs handled by the repository are ASCII. -/
def isWs (c : Char) : Bool :=
  c = ' ' || c = '\t' || c = '\n' || c = '\r' || c = '\x0B' || c = '\x0C'

/-- JavaScript `Array.prototype.join(sep)`. -/
def joinSep (sep : List Char) : List (List Char) → List Char
  | [] => []
  | [x] => x
  | x :: xs => x ++ sep ++ joinSep sep xs

/-- JavaScript `String.prototype.trim()` (ASCII whitespace). -/
def trimWs (l : List Char) : List Char :=
  ((l.dropWhile isWs).reverse.dropWhile isWs).reverse

/-- Prepend a character onto the first piece of a piece list (the step a
split function takes on a non-separator character). -/
def consPiece (c : Char) : List (List Char) → List (List Char)
  | [] => [[c]]
  | p :: pt => (c :: p) :: pt

/-- JavaScript `String.prototype.split(sep)` for a single-character separator
`d`: split at every occurrence of `d`, keeping empty pieces, and `[""]` for
the empty string. -/
def splitChar (d : Char) : List Char → List (List Char)
  | [] => [[]]
  | c :: rest =>
    if c = d then [] :: splitChar d rest
    else consPiece c (splitChar d rest)

/-- JavaScript `String.prototype.split(/\s+/)`: split at every maximal
whitespace run, keeping an empty piece at either end when the string starts
or ends with whitespace, and `[""]` for the empty string. -/
def splitWs : List Char → List (List Char)
  | [] => [[]]
  | c :: rest =>
    if isWs c then
      match rest with
      | d :: _ => if isWs d then splitWs rest else [] :: splitWs rest
      | [] => [] :: splitWs rest
    else consPiece c (splitWs rest)

/-- Token-list step on a non-delimiter character `c`: when the rest of the
string starts a new token (next character is a delimiter or the string
ends), `c` becomes a singleton token, otherwise `c` is prepended onto the
first token of the rest. -/
def consTok (p : Char → Bool) (c : Char) (rest : List Char)
    (ts : List (List Char)) : List (List Char) :=
  match rest, ts with
  | [], _ => [[c]]
  | d :: _, ts' =>
    if p d then [c] :: ts'
    else
      match ts' with
      | [] => [[c]]
      | t :: tt => (c :: t) :: tt

/-- Maximal runs of non-delimiter characters (the delimiter-separated groups
of a string, with no empty groups).  Used to state properties of the split
functions above. -/
def tokens (p : Char → Bool) : List Char → List (List Char)
  | [] => []
  | c :: rest =>
    if p c then tokens p rest
    else consTok p c rest (tokens p rest)

/-! ## morseData.js -/

/-- Entry list of `MORSE_CODE_MAP` from `morseData.js`, in source order:
26 letters, 10 digits, 18 punctuation marks. -/
def morsePairs : List (Char × List Char) :=
  [ ('A', chars (".-")), ('B', chars ("-...")), ('C', chars ("-.-.")),
    ('D', chars ("-..")), ('E', chars (".")), ('F', chars ("..-.")),
    ('G', chars ("--.")), ('H', chars ("....")), ('I', chars ("..")),
    ('J', chars (".---")), ('K', chars ("-.-")), ('L', chars (".-..")),
    ('M', chars ("--")), ('N', chars ("-.")), ('O', chars ("---")),
    ('P', chars (".--.")), ('Q', chars ("--.-")), ('R', chars (".-.")),
    ('S', chars ("...")), ('T', chars ("-")), ('U', chars ("..-")),
    ('V', chars ("...-")), ('W', chars (".--")), ('X', chars ("-..-")),
    ('Y', chars ("-.--")), ('Z', chars ("--..")),
    ('0', chars ("-----")), ('1', chars (".----")), ('2', chars ("..---")),
    ('3', chars ("...--")), ('4', chars ("....-")), ('5', chars (".....")),
    ('6', chars ("-....")), ('7', chars ("--...")), ('8', chars ("---..")),
    ('9', chars ("----.")),
    ('.', chars (".-.-.-")), (',', chars ("--..--")), ('?', chars ("..--..")),
    ('\'', chars (".----.")), ('!', chars ("-.-.--")), ('/', chars ("-..-.")),
    ('(', chars ("-.--.")), (')', chars ("-.--.-")), ('&', chars (".-...")),
    (':', chars ("---...")), (';', chars ("-.-.-.")), ('=', chars ("-...-")),
    ('+', chars (".-.-.")), ('-', chars ("-....-")), ('_', chars ("..--.-")),
    ('"', chars (".-..-.")), ('$', chars ("...-..-")), ('@', chars (".--.-.")) ]

/-- Property lookup `MORSE_CODE_MAP[char]` (`undefined` becomes `none`). -/
def MORSE_CODE_MAP (c : Char) : Option (List Char) :=
  morsePairs.lookup c

/-- Reverse mapping `TEXT_FROM_MORSE`, built with `Object.fromEntries` over
the swapped entries; a later entry would overwrite an earlier one with the
same key, so lookup takes the last matching entry. -/
def TEXT_FROM_MORSE (m : List Char) : Option Char :=
  ((morsePairs.map (fun p => (p.2, p.1))).reverse).lookup m

/-- Timing constants `MORSE_TIMING` from `morseData.js` (in units). -/
structure MorseTiming where
  DIT : ℚ
  DAH : ℚ
  INTRA_CHAR_GAP : ℚ
  INTER_CHAR_GAP : ℚ
  WORD_GAP : ℚ

/-- Timing constant values per ITU-R M.1677-1. -/
def MORSE_TIMING : MorseTiming :=
  { DIT := 1, DAH := 3, INTRA_CHAR_GAP := 1, INTER_CHAR_GAP := 3, WORD_GAP := 7 }

/-- Source `getSupportedCharacters()`: `Object.keys(MORSE_CODE_MAP)`. -/
def getSupportedCharacters : List Char := morsePairs.map Prod.fst

/-! ## morseCodec.js -/

/-- Translation result structure from `morseCodec.js`.  The `errors` message
list and the wall-clock `duration` field are omitted: no verified property
mentions them (message text and `performance.now()` timing are presentation
concerns). -/
structure TranslationResult where
  output : List Char
  unsupportedChars : List Char
  isValid : Bool
deriving DecidableEq

/-- Word groups built by `translateToMorse`: uppercase, split on whitespace,
translate each word character by character dropping unmapped characters, keep
only the words whose translation is non-empty, and join each kept word's
codes with a single space. -/
def morseGroups (input : List Char) : List (List Char) :=
  let normalized := input.map Char.toUpper
  let words := splitWs normalized
  ((words.map (fun w => w.filterMap MORSE_CODE_MAP)).filter
    (fun g => g ≠ [])).map (joinSep (chars (" ")))

/-- Unsupported characters collected by `translateToMorse` (a `Set` in the
source, modelled as a first-occurrence-deduplicated list). -/
def unsupportedOf (input : List Char) : List Char :=
  (((splitWs (input.map Char.toUpper)).flatten.filter
      (fun c => (MORSE_CODE_MAP c).isNone)).foldl
    (fun acc c => if c ∈ acc then acc else acc ++ [c]) [])

/-- Source `translateToMorse`: kept word groups joined by `' / '`; always
`isValid = true`. -/
def translateToMorse (input : List Char) : TranslationResult :=
  { output := joinSep (chars (" / ")) (morseGroups input),
    unsupportedChars := unsupportedOf input,
    isValid := true }

/-- Per-symbol-group decoding in `translateToText`: a recognized group maps
to its character, an unrecognized one to the placeholder `'?'` with the
word's validity flag cleared. -/
def decodeSym (m : List Char) : Char × Bool :=
  match TEXT_FROM_MORSE m with
  | some c => (c, true)
  | none => ('?', false)

/-- Per-word decoding in `translateToText`: trim the word, skip it when
empty, split it on whitespace, trim and skip empty groups, decode each
remaining group; returns the decoded characters and the word's validity. -/
def decodePiece (piece : List Char) : Option (List Char × Bool) :=
  let word := trimWs piece
  if word = [] then none
  else
    let decoded := ((splitWs word).map trimWs).filterMap
      (fun m => if m = [] then none else some (decodeSym m))
    if decoded = [] then none
    else some (decoded.map Prod.fst, decoded.all Prod.snd)

/-- Source `translateToText`: split the input on `'/'`, decode each word,
join the decoded words with a single space; `isValid` is cleared when any
group failed to decode. -/
def translateToText (input : List Char) : TranslationResult :=
  let dec := (splitChar '/' input).filterMap decodePiece
  { output := joinSep (chars (" ")) (dec.map Prod.fst),
    unsupportedChars := [],
    isValid := dec.all Prod.snd }

/-- Error taxonomy of `translate`: an invalid `direction` is thrown (the
source throws `Error('Invalid direction. Must be "toMorse" or "toText"')`). -/
inductive CodecError
  | invalidDirection
deriving DecidableEq

/-- Result returned by `translate` for empty (after trimming) input. -/
def emptyResult : TranslationResult :=
  { output := [], unsupportedChars := [], isValid := true }

/-- Source `translate(input, direction)`: validates `direction` first (and
throws on anything other than `'toMorse'`/`'toText'`), then coalesces
`null`/`undefined` input to `''`, then short-circuits on empty trimmed
input, then dispatches. -/
def translate (input : Option (List Char)) (direction : List Char) :
    Except CodecError TranslationResult :=
  if !(direction == chars ("toMorse")) && !(direction == chars ("toText")) then
    .error .invalidDirection
  else
    let inp := input.getD []
    if trimWs inp = [] then .ok emptyResult
    else if direction == chars ("toMorse") then .ok (translateToMorse inp)
    else .ok (translateToText inp)

/-- Character class of the validation regex `^[\.\-\s\/]+$`. -/
def validChar (c : Char) : Bool :=
  c = '.' || c = '-' || isWs c || c = '/'

/-- Regex `^\.{7,}$` (a run of at least 7 dots). -/
def isDotRun7 (s : List Char) : Bool :=
  s.all (fun c => c = '.') && decide (7 ≤ s.length)

/-- Regex `^\-{6,}$` (a run of at least 6 dashes). -/
def isDashRun6 (s : List Char) : Bool :=
  s.all (fun c => c = '-') && decide (6 ≤ s.length)

/-- Test whether a string is a concatenation of copies of the two-character
block `ab`. -/
def repPair (a b : Char) : List Char → Bool
  | [] => true
  | [_] => false
  | x :: y :: rest => x = a && y = b && repPair a b rest

/-- Regex `^(xy){6,}$`: at least six repetitions of the block `xy`. -/
def isAltPairs (a b : Char) (s : List Char) : Bool :=
  repPair a b s && decide (12 ≤ s.length)

/-- JavaScript values at the `validateMorse` public interface. -/
inductive JsValue
  | vNull
  | vUndefined
  | vStr (s : List Char)
  | vNum (q : ℚ)
  | vBool (b : Bool)
deriving DecidableEq

/-- JavaScript truthiness test (`!v` is `true` exactly on falsy values). -/
def falsy : JsValue → Bool
  | .vNull => true
  | .vUndefined => true
  | .vStr s => s.isEmpty
  | .vNum q => q == 0
  | .vBool b => !b

/-- JavaScript `typeof v === 'string'`. -/
def isStringVal : JsValue → Bool
  | .vStr _ => true
  | _ => false

/-- String payload of a value (only consulted after the string type check). -/
def strVal : JsValue → List Char
  | .vStr s => s
  | _ => []

/-- String-level body of `validateMorse`: the character-class regex, then the
continuous-sequence heuristic when the string has no space and no slash,
otherwise the per-group reverse-map check over words split on `'/'` and then
on whitespace. -/
def validateMorseStr (s : List Char) : Bool :=
  if !(!s.isEmpty && s.all validChar) then false
  else if !(s.contains ' ') && !(s.contains '/') then
    if isDotRun7 s || isDashRun6 s then false
    else if isAltPairs '.' '-' s || isAltPairs '-' '.' s then false
    else decide (s.length ≤ 9)
  else
    (splitChar '/' s).all (fun word =>
      ((splitWs (trimWs word)).filter (fun c => c ≠ [])).all
        (fun code => (TEXT_FROM_MORSE code).isSome))

/-- Source `validateMorse(morseSequence)`: the falsy/type guard
`if (!morseSequence || typeof morseSequence !== 'string') return false`
followed by the string-level body. -/
def validateMorse (v : JsValue) : Bool :=
  if falsy v || !isStringVal v then false
  else validateMorseStr (strVal v)

/-! ## morsePlayer.js -/

/-- Audio configuration (`DEFAULT_CONFIG` shape): tone frequency in Hz, unit
duration in milliseconds, volume in [0,1]. -/
structure AudioConfig where
  frequency : ℚ
  unitDuration : ℚ
  volume : ℚ
deriving DecidableEq

/-- Source `DEFAULT_CONFIG`: 600 Hz, 60 ms per unit (20 WPM), volume 0.3. -/
def DEFAULT_CONFIG : AudioConfig :=
  { frequency := 600, unitDuration := 60, volume := 3 / 10 }

/-- Events produced by the scheduling walk of `play`, as offsets in seconds
from the `AudioContext` clock value read at entry (`ctx.currentTime` is
treated as constant during the synchronous scheduling loop): a scheduled
tone with its start offset and duration, or a progress-callback timer
scheduled via `setTimeout` at a given offset.  The scheduled closure is
`() => onProgress(charIndex, totalChars)`: it captures `totalChars` (a
`const`, safe to record here) but reads the *mutable* `charIndex` binding
only when the timer fires — after the synchronous loop has finished — so
no `symbolIndex` value exists at scheduling time and none is recorded; see
`progressInvocations` for the arguments the callback actually receives. -/
inductive PlayEvent
  | tone (start duration : ℚ)
  | progress (fireAt : ℚ) (totalSymbolCount : ℕ)
deriving DecidableEq

/-- State threaded through the scheduling loop of `play`: the running
`currentTime` offset (seconds), the running `charIndex`, and the events
scheduled so far, in order. -/
structure SchedState where
  currentTime : ℚ
  charIndex : ℕ
  events : List PlayEvent
deriving DecidableEq

/-- Loop body of `play` (lines 78-115 of `morsePlayer.js`), with
`u = audioConfig.unitDuration / 1000` the unit duration in seconds:
a dot schedules a 1-unit tone, a progress callback at the tone's end
offset (the source advances `currentTime` past the tone before computing
the `setTimeout` delay), then a 1-unit trailing intra-character gap;
a dash does the same with a 3-unit tone; a space adds 2 further units of
silence, a slash 4; every other character is ignored.  The progress
callback is modelled as present (`onProgress` non-null).  The `charIndex`
field models the loop's mutable `charIndex` binding (incremented after each
scheduled tone); the progress event records the eagerly evaluated
`setTimeout` delay and the `const totalChars`, but not `charIndex`, whose
read the closure defers past the end of the loop. -/
def playStep (u : ℚ) (total : ℕ) (st : SchedState) (symbol : Char) : SchedState :=
  if symbol = '.' then
    let toneEnd := st.currentTime + MORSE_TIMING.DIT * u
    { currentTime := toneEnd + MORSE_TIMING.INTRA_CHAR_GAP * u,
      charIndex := st.charIndex + 1,
      events := st.events ++
        [.tone st.currentTime (MORSE_TIMING.DIT * u),
         .progress toneEnd total] }
  else if symbol = '-' then
    let toneEnd := st.currentTime + MORSE_TIMING.DAH * u
    { currentTime := toneEnd + MORSE_TIMING.INTRA_CHAR_GAP * u,
      charIndex := st.charIndex + 1,
      events := st.events ++
        [.tone st.currentTime (MORSE_TIMING.DAH * u),
         .progress toneEnd total] }
  else if symbol = ' ' then
    { st with currentTime := st.currentTime + 2 * u }
  else if symbol = '/' then
    { st with currentTime := st.currentTime + 4 * u }
  else st

/-- Scheduling walk of `play`: fold the loop body over the symbol string,
starting at offset 0 with `charIndex = 0`; `totalChars` is the raw string
length. -/
def playSchedule (seq : List Char) (cfg : AudioConfig) : SchedState :=
  seq.foldl (playStep (cfg.unitDuration / 1000) seq.length) ⟨0, 0, []⟩

/-- Arguments `(fireAt, symbolIndex, totalSymbolCount)` each progress
invocation actually receives.  JavaScript timers cannot preempt the running
script: every `setTimeout` closure fires only after the synchronous
scheduling loop has returned, and each closure reads the mutable
`charIndex` binding at that moment — so every invocation observes the
final value of `charIndex`, the state's `charIndex` after the whole walk. -/
def progressInvocations (st : SchedState) : List (ℚ × ℕ × ℕ) :=
  st.events.filterMap (fun e =>
    match e with
    | .progress t total => some (t, st.charIndex, total)
    | _ => none)

/-- Ways the promise returned by `play` can be settled. -/
inductive Settle
  | resolved
  | rejected (msg : List Char)
deriving DecidableEq

/-- Completion bookkeeping of one `play` session: the single completion
`setTimeout` scheduled at the end of `play` (its delay in milliseconds and
what it does to the promise when it fires).  The source never calls
`clearTimeout` and `stop()` never touches the promise, so this timer always
fires and is the only settlement of a scheduled session's promise. -/
structure Session where
  completionDelayMs : ℚ
  onCompletion : Settle
deriving DecidableEq

/-- Result of a `play(morseSequence, config, onProgress)` call. -/
inductive PlayResult
  | noAudio (err : Settle)
  | empty
  | scheduled (sched : SchedState) (session : Session)
deriving DecidableEq

/-- Source `play` (lines 46-130 of `morsePlayer.js`): reject when the Web
Audio API is unavailable; resolve immediately on an empty or
whitespace-only sequence; otherwise run the scheduling walk and install the
completion timer, which resolves the promise after the total scheduled
duration.  No code path ever rejects a scheduled session's promise after
scheduling succeeds. -/
def play (supported : Bool) (seq : List Char) (cfg : AudioConfig) : PlayResult :=
  if !supported then
    .noAudio (.rejected (chars ("Web Audio API not supported")))
  else if trimWs seq = [] then .empty
  else
    let st := playSchedule seq cfg
    .scheduled st { completionDelayMs := st.currentTime * 1000, onCompletion := .resolved }

/-- Module-level mutable state touched by `stop()` (lines 164-177): the
`isPlaying` flag and the list of scheduled oscillator nodes (modelled by
their count).  `stop()` reads and writes nothing else: in particular it has
no access to any session's `resolve`/`reject` and clears no timer. -/
structure PlayerState where
  isPlaying : Bool
  scheduledNodes : ℕ
deriving DecidableEq

/-- Source `stop()`: stop every scheduled oscillator and clear the state. -/
def stop (_ : PlayerState) : PlayerState :=
  { isPlaying := false, scheduledNodes := 0 }

/-- Source `setSpeed(wpm)` (lines 183-189): clamp the argument to [5, 40]
with `Math.max(5, Math.min(40, wpm))` and store `1200 / wpm` milliseconds
as the new unit duration. -/
def setSpeed (cfg : AudioConfig) (wpm : ℚ) : AudioConfig :=
  { cfg with unitDuration := 1200 / max 5 (min 40 wpm) }

/-! ## Properties of the splitting helpers -/

theorem tokens_nil (p : Char → Bool) : tokens p [] = [] := rfl

theorem tokens_cons_pos (p : Char → Bool) (c : Char) (l : List Char)
    (h : p c = true) : tokens p (c :: l) = tokens p l := by
  cases l with
  | nil => simp [tokens, h]
  | cons d r => simp [tokens, h]

theorem takeWhile_append_all {α : Type} (f : α → Bool) (u v : List α)
    (h : ∀ a ∈ u, f a = true) :
    (u ++ v).takeWhile f = u ++ v.takeWhile f := by
  induction u with
  | nil => simp
  | cons a t ih =>
    simp only [List.cons_append, List.takeWhile_cons_of_pos (h a (by simp))]
    rw [ih (fun b hb => h b (by simp [hb]))]

theorem dropWhile_append_all {α : Type} (f : α → Bool) (u v : List α)
    (h : ∀ a ∈ u, f a = true) :
    (u ++ v).dropWhile f = v.dropWhile f := by
  induction u with
  | nil => simp
  | cons a t ih =>
    simp only [List.cons_append, List.dropWhile_cons_of_pos (h a (by simp))]
    exact ih (fun b hb => h b (by simp [hb]))

theorem tokens_cons_neg (p : Char → Bool) (c : Char) (rest : List Char)
    (h : p c = false) :
    tokens p (c :: rest) =
      (c :: rest.takeWhile (fun x => !p x)) ::
        tokens p (rest.dropWhile (fun x => !p x)) := by
  induction rest generalizing c with
  | nil => simp [tokens, h, consTok]
  | cons d r ih =>
    by_cases hd : p d = true
    · simp [tokens, h, hd, consTok, List.takeWhile_cons, List.dropWhile_cons]
    · have hd' : p d = false := eq_false_of_ne_true hd
      have h1 : tokens p (c :: d :: r) = consTok p c (d :: r) (tokens p (d :: r)) := by
        simp [tokens, h]
      rw [h1, ih d hd']
      simp only [consTok, hd', Bool.false_eq_true, if_false]
      rw [List.takeWhile_cons_of_pos (by simp [hd']),
        List.dropWhile_cons_of_pos (by simp [hd'])]

theorem tokens_of_all (p : Char → Bool) (l : List Char)
    (h : ∀ c ∈ l, p c = true) : tokens p l = [] := by
  induction l with
  | nil => rfl
  | cons c r ih =>
    rw [tokens_cons_pos p c r (h c (by simp))]
    exact ih (fun b hb => h b (by simp [hb]))

theorem tokens_run (p : Char → Bool) (l : List Char) (hne : l ≠ [])
    (h : ∀ c ∈ l, p c = false) : tokens p l = [l] := by
  cases l with
  | nil => exact absurd rfl hne
  | cons c r =>
    rw [tokens_cons_neg p c r (h c (by simp))]
    rw [List.takeWhile_eq_self_iff.mpr (fun x hx => by simp [h x (by simp [hx])])]
    rw [List.dropWhile_eq_nil_iff.mpr (fun x hx => by simp [h x (by simp [hx])])]
    rfl

theorem tokens_dropWhile_self (p : Char → Bool) (l : List Char) :
    tokens p (l.dropWhile p) = tokens p l := by
  induction l with
  | nil => rfl
  | cons c r ih =>
    by_cases hc : p c = true
    · rw [List.dropWhile_cons_of_pos hc, tokens_cons_pos p c r hc, ih]
    · rw [List.dropWhile_cons_of_neg hc]

theorem head_dropWhile_false {α : Type} (f : α → Bool) (l : List α) (a : α)
    (t : List α) (h : l.dropWhile f = a :: t) : f a = false := by
  have := List.head?_dropWhile_not f l
  rw [h] at this
  simpa using this

theorem takeWhile_of_first_false {α : Type} (f : α → Bool) (r : List α)
    (h : ∀ a t, r = a :: t → f a = false) : r.takeWhile f = [] := by
  cases r with
  | nil => rfl
  | cons a t => exact List.takeWhile_cons_of_neg (by simp [h a t rfl])

theorem dropWhile_of_first_false {α : Type} (f : α → Bool) (r : List α)
    (h : ∀ a t, r = a :: t → f a = false) : r.dropWhile f = r := by
  cases r with
  | nil => rfl
  | cons a t => exact List.dropWhile_cons_of_neg (by simp [h a t rfl])

theorem tokens_append_all_aux (p : Char → Bool) (r : List Char)
    (hr : ∀ c ∈ r, p c = true) :
    ∀ n (m : List Char), m.length ≤ n → tokens p (m ++ r) = tokens p m := by
  intro n
  induction n with
  | zero =>
    intro m hm
    have hm0 : m = [] := List.length_eq_zero.mp (Nat.le_zero.mp hm)
    subst hm0
    simpa using tokens_of_all p r hr
  | succ n ihn =>
    intro m hm
    cases m with
    | nil => simpa using tokens_of_all p r hr
    | cons c m' =>
      by_cases hc : p c = true
      · rw [List.cons_append, tokens_cons_pos p c (m' ++ r) hc,
          tokens_cons_pos p c m' hc]
        exact ihn m' (Nat.le_of_succ_le_succ hm)
      · have hc' : p c = false := eq_false_of_ne_true hc
        rw [List.cons_append, tokens_cons_neg p c (m' ++ r) hc',
          tokens_cons_neg p c m' hc']
        have hdec := (List.takeWhile_append_dropWhile
          (p := fun x => !p x) (l := m')).symm
        have htwmem : ∀ a ∈ m'.takeWhile (fun x => !p x), p a = false := by
          intro a ha
          have := List.mem_takeWhile_imp (p := fun x => !p x) ha
          simpa using this
        have hrtw : r.takeWhile (fun x => !p x) = [] :=
          takeWhile_of_first_false _ r
            (fun a t hat => by simp [hr a (by simp [hat])])
        have hrdw : r.dropWhile (fun x => !p x) = r :=
          dropWhile_of_first_false _ r
            (fun a t hat => by simp [hr a (by simp [hat])])
        cases hdw : m'.dropWhile (fun x => !p x) with
        | nil =>
          have hall : ∀ a ∈ m', p a = false := by
            intro a ha
            have := List.dropWhile_eq_nil_iff.mp hdw a ha
            simpa using this
          have hm'tw : m'.takeWhile (fun x => !p x) = m' :=
            List.takeWhile_eq_self_iff.mpr (fun a ha => by simp [hall a ha])
          have h1 : (m' ++ r).takeWhile (fun x => !p x) = m' := by
            rw [takeWhile_append_all _ m' r (fun a ha => by simp [hall a ha]),
              hrtw, List.append_nil]
          have h2 : (m' ++ r).dropWhile (fun x => !p x) = r := by
            rw [dropWhile_append_all _ m' r (fun a ha => by simp [hall a ha]),
              hrdw]
          rw [h1, h2, hm'tw, tokens_of_all p r hr]
          rfl
        | cons e dwt =>
          have hpe : p e = true := by
            have := head_dropWhile_false (fun x => !p x) m' e dwt hdw
            simpa using this
          have hm'eq : m' = m'.takeWhile (fun x => !p x) ++ (e :: dwt) := by
            conv_lhs => rw [hdec, hdw]
          have h1 : (m' ++ r).takeWhile (fun x => !p x) =
              m'.takeWhile (fun x => !p x) := by
            conv_lhs => rw [hm'eq, List.append_assoc]
            rw [takeWhile_append_all _ _ _ (fun a ha => by simp [htwmem a ha]),
              List.cons_append,
              List.takeWhile_cons_of_neg (p := fun x => !p x) (a := e)
                (l := dwt ++ r) (by simp [hpe]), List.append_nil]
          have h2 : (m' ++ r).dropWhile (fun x => !p x) = e :: (dwt ++ r) := by
            conv_lhs => rw [hm'eq, List.append_assoc]
            rw [dropWhile_append_all _ _ _ (fun a ha => by simp [htwmem a ha]),
              List.cons_append,
              List.dropWhile_cons_of_neg (p := fun x => !p x) (a := e)
                (l := dwt ++ r) (by simp [hpe])]
          have hlen : dwt.length ≤ n := by
            have hsuf : (e :: dwt).length ≤ m'.length := by
              rw [← hdw]
              exact (List.dropWhile_suffix _).length_le
            have : m'.length ≤ n := Nat.le_of_succ_le_succ hm
            simp only [List.length_cons] at hsuf
            omega
          rw [h1, h2, tokens_cons_pos p e (dwt ++ r) hpe,
            tokens_cons_pos p e dwt hpe]
          rw [ihn dwt hlen]

theorem tokens_append_all (p : Char → Bool) (m r : List Char)
    (hr : ∀ c ∈ r, p c = true) : tokens p (m ++ r) = tokens p m :=
  tokens_append_all_aux p r hr m.length m (Nat.le_refl _)

theorem tokens_trimWs (l : List Char) :
    tokens isWs (trimWs l) = tokens isWs l := by
  unfold trimWs
  have hsplit : l.dropWhile isWs =
      ((l.dropWhile isWs).reverse.dropWhile isWs).reverse ++
        ((l.dropWhile isWs).reverse.takeWhile isWs).reverse := by
    conv_lhs => rw [← List.reverse_reverse (l.dropWhile isWs),
      ← List.takeWhile_append_dropWhile (p := isWs)
        (l := (l.dropWhile isWs).reverse)]
    rw [List.reverse_append]
  have hall : ∀ c ∈ ((l.dropWhile isWs).reverse.takeWhile isWs).reverse,
      isWs c = true := by
    intro c hc
    exact List.mem_takeWhile_imp (List.mem_reverse.mp hc)
  calc tokens isWs ((l.dropWhile isWs).reverse.dropWhile isWs).reverse
      = tokens isWs (((l.dropWhile isWs).reverse.dropWhile isWs).reverse ++
          ((l.dropWhile isWs).reverse.takeWhile isWs).reverse) :=
        (tokens_append_all isWs _ _ hall).symm
    _ = tokens isWs (l.dropWhile isWs) := by rw [← hsplit]
    _ = tokens isWs l := tokens_dropWhile_self isWs l

theorem splitWs_ne_nil (l : List Char) : splitWs l ≠ [] := by
  cases l with
  | nil => simp [splitWs]
  | cons c rest =>
    by_cases hc : isWs c = true
    · cases rest with
      | nil => simp [splitWs, hc]
      | cons d r =>
        by_cases hd : isWs d = true
        · simpa [splitWs, hc, hd] using splitWs_ne_nil (d :: r)
        · simp [splitWs, hc, hd]
    · have hc' : isWs c = false := eq_false_of_ne_true hc
      cases hsp : splitWs rest with
      | nil => simp [splitWs, hc', consPiece, hsp]
      | cons p pt => simp [splitWs, hc', consPiece, hsp]

theorem splitWs_ws_head (d : Char) (r : List Char) (hd : isWs d = true) :
    ∃ pt, splitWs (d :: r) = [] :: pt := by
  induction r generalizing d with
  | nil => exact ⟨[[]], by simp [splitWs, hd]⟩
  | cons g r' ih =>
    by_cases hg : isWs g = true
    · obtain ⟨pt, hpt⟩ := ih g hg
      exact ⟨pt, by simp [splitWs, hd, hg]; simpa [splitWs, hg] using hpt⟩
    · exact ⟨splitWs (g :: r'), by simp [splitWs, hd, hg]⟩

theorem splitWs_head_nil (l : List Char) (pt : List (List Char))
    (h : splitWs l = [] :: pt) :
    ∀ a t, l = a :: t → isWs a = true := by
  intro a t hat
  subst hat
  by_contra hfa
  have ha : isWs a = false := eq_false_of_ne_true hfa
  cases hsp : splitWs t with
  | nil => exact splitWs_ne_nil t hsp
  | cons q qt =>
    rw [show splitWs (a :: t) = consPiece a (splitWs t) by simp [splitWs, ha],
      hsp] at h
    simp [consPiece] at h

theorem splitWs_cons_head (l : List Char) (e : Char) (pc' : List Char)
    (pt : List (List Char)) (h : splitWs l = (e :: pc') :: pt) :
    ∃ r', l = e :: r' ∧ isWs e = false ∧ splitWs r' = pc' :: pt := by
  cases l with
  | nil => simp [splitWs] at h
  | cons d r' =>
    by_cases hd : isWs d = true
    · obtain ⟨pt', hpt'⟩ := splitWs_ws_head d r' hd
      rw [hpt'] at h
      simp at h
    · have hd' : isWs d = false := eq_false_of_ne_true hd
      cases hsp : splitWs r' with
      | nil => exact absurd hsp (splitWs_ne_nil r')
      | cons q qt =>
        rw [show splitWs (d :: r') = consPiece d (splitWs r') by
            simp [splitWs, hd'], hsp] at h
        simp only [consPiece, List.cons.injEq] at h
        obtain ⟨⟨hde, hqpc⟩, hqt⟩ := h
        subst hde hqpc hqt
        exact ⟨r', rfl, hd', hsp⟩

theorem splitWs_filter (l : List Char) :
    (splitWs l).filter (fun t => t ≠ []) = tokens isWs l := by
  induction l with
  | nil => simp [splitWs, tokens]
  | cons c rest ih =>
    by_cases hc : isWs c = true
    · rw [tokens_cons_pos isWs c rest hc]
      cases rest with
      | nil => simp [splitWs, hc, tokens]
      | cons d r =>
        by_cases hd : isWs d = true
        · rw [show splitWs (c :: d :: r) = splitWs (d :: r) by
            simp [splitWs, hc, hd]]
          exact ih
        · rw [show splitWs (c :: d :: r) = [] :: splitWs (d :: r) by
            simp [splitWs, hc, hd]]
          rw [List.filter_cons]
          simpa using ih
    · have hc' : isWs c = false := eq_false_of_ne_true hc
      rw [show splitWs (c :: rest) = consPiece c (splitWs rest) by
        simp [splitWs, hc']]
      cases hsp : splitWs rest with
      | nil => exact absurd hsp (splitWs_ne_nil rest)
      | cons pc pt =>
        rw [tokens_cons_neg isWs c rest hc']
        have ih' : (pc :: pt).filter (fun t => t ≠ []) = tokens isWs rest := by
          rw [← hsp]; exact ih
        cases pc with
        | nil =>
          have hfirst : ∀ a t, rest = a :: t → (fun x => !isWs x) a = false :=
            fun a t hat => by simp [splitWs_head_nil rest pt hsp a t hat]
          rw [takeWhile_of_first_false _ rest hfirst,
            dropWhile_of_first_false _ rest hfirst]
          have ih'' : pt.filter (fun t => t ≠ []) = tokens isWs rest := by
            simpa using ih'
          simpa [consPiece] using ih''
        | cons e pc' =>
          obtain ⟨r', hrest, he, hspr'⟩ := splitWs_cons_head rest e pc' pt hsp
          subst hrest
          rw [tokens_cons_neg isWs e r' he] at ih'
          simp only [List.filter_cons, ne_eq, List.cons.injEq] at ih'
          simp only [List.cons_ne_nil, not_false_eq_true] at ih'
          rw [if_pos (by simp)] at ih'
          have h0 := List.cons.inj ih'
          have hpc' : pc' = List.takeWhile (fun x => !isWs x) r' :=
            (List.cons.inj h0.1).2
          have hptf : pt.filter (fun t => t ≠ []) =
              tokens isWs (List.dropWhile (fun x => !isWs x) r') := by
            simpa using h0.2
          simp only [consPiece, List.filter_cons, ne_eq, List.cons_ne_nil,
            not_false_eq_true]
          rw [if_pos (by simp)]
          rw [List.takeWhile_cons_of_pos (by simp [he]),
            List.dropWhile_cons_of_pos (by simp [he])]
          rw [hptf, hpc']

theorem splitWs_pieces_no_ws (l : List Char) :
    ∀ t ∈ splitWs l, ∀ c ∈ t, isWs c = false := by
  induction l with
  | nil => simp [splitWs]
  | cons c rest ih =>
    by_cases hc : isWs c = true
    · cases rest with
      | nil =>
        intro t ht
        rw [show splitWs [c] = [[], []] by simp [splitWs, hc]] at ht
        have ht' : t = [] := by
          rcases (by simpa using ht : t = [] ∨ t = []) with h | h <;> exact h
        subst ht'
        simp
      | cons d r =>
        by_cases hd : isWs d = true
        · rw [show splitWs (c :: d :: r) = splitWs (d :: r) by
            simp [splitWs, hc, hd]]
          exact ih
        · rw [show splitWs (c :: d :: r) = [] :: splitWs (d :: r) by
            simp [splitWs, hc, hd]]
          intro t ht
          rcases List.mem_cons.mp ht with h | h
          · subst h; simp
          · exact ih t h
    · have hc' : isWs c = false := eq_false_of_ne_true hc
      rw [show splitWs (c :: rest) = consPiece c (splitWs rest) by
        simp [splitWs, hc']]
      cases hsp : splitWs rest with
      | nil => exact absurd hsp (splitWs_ne_nil rest)
      | cons p pt =>
        intro t ht
        rcases List.mem_cons.mp (by simpa [consPiece] using ht) with h | h
        · subst h
          intro a ha
          rcases List.mem_cons.mp ha with h' | h'
          · subst h'; exact hc'
          · exact ih p (by rw [hsp]; simp) a h'
        · exact ih t (by rw [hsp]; simp [h])

theorem splitChar_ne_nil (d : Char) (l : List Char) : splitChar d l ≠ [] := by
  cases l with
  | nil => simp [splitChar]
  | cons c rest =>
    by_cases hc : c = d
    · simp [splitChar, hc]
    · cases hsp : splitChar d rest with
      | nil => simp [splitChar, hc, consPiece, hsp]
      | cons p pt => simp [splitChar, hc, consPiece, hsp]

/-- Delimiter class of the specification's "whitespace/`/`-delimited symbol
group": a group boundary is any whitespace character or a slash. -/
def delimChar (c : Char) : Bool := isWs c || c = '/'

theorem splitChar_tokens_flat (s : List Char) :
    ((splitChar '/' s).map (tokens isWs)).flatten = tokens delimChar s := by
  induction s with
  | nil => simp [splitChar, tokens]
  | cons c rest ih =>
    by_cases hslash : c = '/'
    · subst hslash
      rw [show splitChar '/' ('/' :: rest) = [] :: splitChar '/' rest by
        simp [splitChar]]
      rw [tokens_cons_pos delimChar '/' rest (by simp [delimChar])]
      simpa [tokens] using ih
    · by_cases hws : isWs c = true
      · have hdelim : delimChar c = true := by simp [delimChar, hws]
        rw [tokens_cons_pos delimChar c rest hdelim]
        cases hsp : splitChar '/' rest with
        | nil => exact absurd hsp (splitChar_ne_nil '/' rest)
        | cons p pt =>
          rw [show splitChar '/' (c :: rest) = consPiece c (splitChar '/' rest)
            by simp [splitChar, hslash], hsp]
          simp only [consPiece, List.map_cons, List.flatten_cons]
          rw [tokens_cons_pos isWs c p hws]
          rw [← ih, hsp]
          simp
      · have hws' : isWs c = false := eq_false_of_ne_true hws
        have hdelim : delimChar c = false := by
          simp [delimChar, hws', hslash]
        cases rest with
        | nil =>
          rw [show splitChar '/' [c] = [[c]] by
            simp [splitChar, hslash, consPiece]]
          simp only [List.map_cons, List.map_nil, List.flatten_cons,
            List.flatten_nil, List.append_nil]
          rw [tokens_cons_neg delimChar c [] hdelim,
            tokens_cons_neg isWs c [] hws']
          simp [tokens]
        | cons d r2 =>
          rw [tokens_cons_neg delimChar c (d :: r2) hdelim]
          by_cases hd : d = '/'
          · subst hd
            rw [show splitChar '/' (c :: '/' :: r2) =
                consPiece c ([] :: splitChar '/' r2) by simp [splitChar, hslash]]
            simp only [consPiece, List.map_cons, List.flatten_cons]
            rw [tokens_cons_neg isWs c [] hws']
            rw [List.takeWhile_cons_of_neg (by simp [delimChar]),
              List.dropWhile_cons_of_neg (by simp [delimChar])]
            have ih' : ((splitChar '/' r2).map (tokens isWs)).flatten =
                tokens delimChar ('/' :: r2) := by
              rw [← ih]
              rw [show splitChar '/' ('/' :: r2) = [] :: splitChar '/' r2 by
                simp [splitChar]]
              simp [tokens]
            simp only [List.takeWhile_nil, List.dropWhile_nil, tokens]
            rw [ih']
            rfl
          · cases hq : splitChar '/' r2 with
            | nil => exact absurd hq (splitChar_ne_nil '/' r2)
            | cons q qt =>
              have hsprest : splitChar '/' (d :: r2) = (d :: q) :: qt := by
                simp [splitChar, hd, consPiece, hq]
              rw [show splitChar '/' (c :: d :: r2) =
                  consPiece c (splitChar '/' (d :: r2)) by
                simp [splitChar, hslash], hsprest]
              simp only [consPiece, List.map_cons, List.flatten_cons]
              rw [hsprest] at ih
              simp only [List.map_cons, List.flatten_cons] at ih
              by_cases hdws : isWs d = true
              · have hddelim : delimChar d = true := by simp [delimChar, hdws]
                rw [tokens_cons_neg isWs c (d :: q) hws',
                  List.takeWhile_cons_of_neg (by simp [hdws]),
                  List.dropWhile_cons_of_neg (by simp [hdws]),
                  List.takeWhile_cons_of_neg (by simp [hddelim]),
                  List.dropWhile_cons_of_neg (by simp [hddelim])]
                rw [tokens_cons_pos isWs d q hdws] at ih ⊢
                rw [tokens_cons_pos delimChar d r2 hddelim]
                rw [tokens_cons_pos delimChar d r2 hddelim] at ih
                simpa [tokens] using congrArg (List.cons [c]) ih
              · have hdws' : isWs d = false := eq_false_of_ne_true hdws
                have hddelim : delimChar d = false := by
                  simp [delimChar, hdws', hd]
                rw [tokens_cons_neg isWs d q hdws',
                  tokens_cons_neg delimChar d r2 hddelim] at ih
                simp only [List.cons_append] at ih
                have h0 := List.cons.inj ih
                have htw : List.takeWhile (fun x => !isWs x) q =
                    List.takeWhile (fun x => !delimChar x) r2 :=
                  (List.cons.inj h0.1).2
                have hdrop : tokens isWs (q.dropWhile (fun x => !isWs x)) ++
                    (qt.map (tokens isWs)).flatten =
                    tokens delimChar (r2.dropWhile (fun x => !delimChar x)) :=
                  h0.2
                rw [tokens_cons_neg isWs c (d :: q) hws',
                  List.takeWhile_cons_of_pos (by simp [hdws']),
                  List.dropWhile_cons_of_pos (by simp [hdws']),
                  List.takeWhile_cons_of_pos (by simp [hddelim]),
                  List.dropWhile_cons_of_pos (by simp [hddelim])]
                rw [List.cons_append, htw, hdrop]

theorem validate_groups_eq (s : List Char) (q : List Char → Bool) :
    (splitChar '/' s).all (fun word =>
      ((splitWs (trimWs word)).filter (fun c => c ≠ [])).all q) =
    (tokens delimChar s).all q := by
  have hword : ∀ w, ((splitWs (trimWs w)).filter (fun c => c ≠ [])).all q =
      (tokens isWs w).all q := fun w => by
    rw [splitWs_filter, tokens_trimWs]
  have hfun : (fun word =>
      ((splitWs (trimWs word)).filter (fun c => c ≠ [])).all q) =
      (fun word => (tokens isWs word).all q) := funext hword
  have all_map_self : ∀ (L : List (List Char)),
      (L.map (tokens isWs)).all (fun x => x.all q) =
        L.all (fun w => (tokens isWs w).all q) := by
    intro L
    induction L with
    | nil => rfl
    | cons a t ih => simp [ih]
  rw [hfun, ← splitChar_tokens_flat s, List.all_flatten, all_map_self]

/-! ## Specification-side reading of `validateMorse` (claim C6) -/

/-- Degenerate run from the specification: 7 or more identical dits, 6 or
more identical dahs, or 6 or more alternating dit-dah pairs (either
phase). -/
def degenerateRun (s : List Char) : Bool :=
  isDotRun7 s || isDashRun6 s || isAltPairs '.' '-' s || isAltPairs '-' '.' s

/-- Validation predicate exactly as the claim words it: non-empty, only
characters in the dot/dash/whitespace/slash class, and either (a) the
sequence contains a space or `'/'` delimiter and every delimited symbol
group is a key of the reverse map, or (b) it has no delimiter, its length
is at most 9 and it is not a degenerate run. -/
def validateMorseSpec (s : List Char) : Bool :=
  !s.isEmpty && s.all validChar &&
    (if s.contains ' ' || s.contains '/' then
      (tokens delimChar s).all (fun g => (TEXT_FROM_MORSE g).isSome)
    else decide (s.length ≤ 9) && !degenerateRun s)

theorem validateMorseStr_eq_spec (s : List Char) :
    validateMorseStr s = validateMorseSpec s := by
  unfold validateMorseStr validateMorseSpec
  by_cases h1 : (!s.isEmpty && s.all validChar) = true
  · by_cases h2 : (s.contains ' ' || s.contains '/') = true
    · have hno : (!s.contains ' ' && !s.contains '/') = false := by
        cases hca : s.contains ' ' with
        | true => simp [hca]
        | false =>
          cases hcb : s.contains '/' with
          | true => simp [hca, hcb]
          | false => rw [hca, hcb] at h2; simp at h2
      simp only [h1, Bool.not_true, Bool.false_eq_true, if_false, hno, h2,
        if_true, Bool.true_and]
      exact validate_groups_eq s _
    · have h2' : (s.contains ' ' || s.contains '/') = false :=
        eq_false_of_ne_true h2
      have hyes : (!s.contains ' ' && !s.contains '/') = true := by
        cases hca : s.contains ' ' with
        | true => rw [hca] at h2'; simp at h2'
        | false =>
          cases hcb : s.contains '/' with
          | true => rw [hca, hcb] at h2'; simp at h2'
          | false => simp [hca, hcb]
      simp only [h1, Bool.not_true, Bool.false_eq_true, if_false, hyes,
        if_true, h2', Bool.true_and, degenerateRun]
      cases hda : isDotRun7 s <;> cases hdb : isDashRun6 s <;>
        cases hdc : isAltPairs '.' '-' s <;> cases hdd : isAltPairs '-' '.' s <;>
        simp
  · have h1' : (!s.isEmpty && s.all validChar) = false :=
      eq_false_of_ne_true h1
    simp [h1']

/-! ## Facts about the character table (established by computation) -/

/-- Morse pattern of a supported character (total helper). -/
def codeOf (c : Char) : List Char := (MORSE_CODE_MAP c).getD []

theorem supported_toUpper : ∀ c ∈ getSupportedCharacters, c.toUpper = c := by
  decide

theorem supported_code_isSome :
    ∀ c ∈ getSupportedCharacters, (MORSE_CODE_MAP c).isSome = true := by
  decide

theorem supported_not_ws :
    ∀ c ∈ getSupportedCharacters, isWs c = false := by decide

theorem supported_round :
    ∀ c ∈ getSupportedCharacters, TEXT_FROM_MORSE (codeOf c) = some c := by
  decide

theorem supported_code_shape :
    ∀ c ∈ getSupportedCharacters,
      codeOf c ≠ [] ∧ ∀ ch ∈ codeOf c, ch = '.' ∨ ch = '-' := by decide

/-! ## Generic helper lemmas for the codec proofs -/

theorem filterMap_isSome_eq_map (l : List Char)
    (h : ∀ c ∈ l, (MORSE_CODE_MAP c).isSome = true) :
    l.filterMap MORSE_CODE_MAP = l.map codeOf := by
  induction l with
  | nil => rfl
  | cons c r ih =>
    rw [List.filterMap_cons, List.map_cons]
    cases hm : MORSE_CODE_MAP c with
    | none =>
      have hc := h c (by simp)
      rw [hm] at hc
      simp at hc
    | some v =>
      rw [show codeOf c = v by simp [codeOf, hm]]
      rw [ih (fun b hb => h b (by simp [hb]))]

theorem splitWs_no_ws (l : List Char) (h : ∀ c ∈ l, isWs c = false) :
    splitWs l = [l] := by
  induction l with
  | nil => rfl
  | cons c r ih =>
    rw [show splitWs (c :: r) = consPiece c (splitWs r) by
      simp [splitWs, h c (by simp)]]
    rw [ih (fun b hb => h b (by simp [hb]))]
    rfl

theorem splitChar_no_d (d : Char) (l : List Char) (h : ∀ c ∈ l, c ≠ d) :
    splitChar d l = [l] := by
  induction l with
  | nil => rfl
  | cons c r ih =>
    rw [show splitChar d (c :: r) = consPiece c (splitChar d r) by
      simp [splitChar, h c (by simp)]]
    rw [ih (fun b hb => h b (by simp [hb]))]
    rfl

theorem trimWs_of_boundary (l : List Char)
    (h1 : ∀ a t, l = a :: t → isWs a = false)
    (h2 : ∀ a t, l.reverse = a :: t → isWs a = false) : trimWs l = l := by
  unfold trimWs
  rw [dropWhile_of_first_false isWs l h1, dropWhile_of_first_false isWs
    l.reverse h2, List.reverse_reverse]

theorem trimWs_of_no_ws (l : List Char) (h : ∀ c ∈ l, isWs c = false) :
    trimWs l = l :=
  trimWs_of_boundary l (fun a t hat => h a (by simp [hat]))
    (fun a t hat => h a (by
      have : a ∈ l.reverse := by simp [hat]
      simpa using this))

theorem tokens_prefix_run (p : Char → Bool) (u v : List Char) (hu : u ≠ [])
    (hall : ∀ c ∈ u, p c = false)
    (hv : ∀ a t, v = a :: t → p a = true) :
    tokens p (u ++ v) = u :: tokens p v := by
  cases u with
  | nil => exact absurd rfl hu
  | cons c u' =>
    rw [List.cons_append, tokens_cons_neg p c (u' ++ v) (hall c (by simp))]
    rw [takeWhile_append_all _ u' v
      (fun a ha => by simp [hall a (by simp [ha])])]
    rw [takeWhile_of_first_false _ v (fun a t hat => by simp [hv a t hat])]
    rw [dropWhile_append_all _ u' v
      (fun a ha => by simp [hall a (by simp [ha])])]
    rw [dropWhile_of_first_false _ v (fun a t hat => by simp [hv a t hat])]
    rw [List.append_nil]

theorem tokens_joinSep (codes : List (List Char)) (hne : codes ≠ [])
    (h : ∀ cd ∈ codes, cd ≠ [] ∧ ∀ ch ∈ cd, isWs ch = false) :
    tokens isWs (joinSep (chars (" ")) codes) = codes := by
  induction codes with
  | nil => exact absurd rfl hne
  | cons cd rest ih =>
    cases rest with
    | nil =>
      rw [show joinSep (chars (" ")) [cd] = cd from rfl]
      exact tokens_run isWs cd (h cd (by simp)).1
        (fun c hc => (h cd (by simp)).2 c hc)
    | cons cd2 rest' =>
      rw [show joinSep (chars (" ")) (cd :: cd2 :: rest') =
        cd ++ chars (" ") ++ joinSep (chars (" ")) (cd2 :: rest') from rfl]
      rw [List.append_assoc,
        show chars (" ") ++ joinSep (chars (" ")) (cd2 :: rest') =
          ' ' :: joinSep (chars (" ")) (cd2 :: rest') from rfl]
      rw [tokens_prefix_run isWs cd _ (h cd (by simp)).1
        (fun c hc => (h cd (by simp)).2 c hc)
        (fun a t hat => by
          have : a = ' ' := (List.cons.inj hat.symm).1
          simp [this, isWs])]
      rw [tokens_cons_pos isWs ' ' _ (by simp [isWs])]
      rw [ih (by simp) (fun cd' hcd' => h cd' (by simp [hcd']))]

theorem map_self_of_eq {α : Type} (f : α → α) (l : List α)
    (h : ∀ x ∈ l, f x = x) : l.map f = l := by
  induction l with
  | nil => rfl
  | cons a t ih =>
    rw [List.map_cons, h a (by simp), ih (fun b hb => h b (by simp [hb]))]

theorem filterMap_if_ne_nil {α : Type} (f : List Char → α)
    (L : List (List Char)) :
    L.filterMap (fun m => if m = [] then none else some (f m)) =
      (L.filter (fun t => t ≠ [])).map f := by
  induction L with
  | nil => rfl
  | cons a t ih =>
    rw [List.filterMap_cons, List.filter_cons]
    by_cases ha : a = []
    · subst ha
      simpa using ih
    · rw [if_neg ha, if_pos (by simpa using ha), List.map_cons, ih]

theorem mem_joinSep (sep : List Char) (xs : List (List Char)) (c : Char)
    (hc : c ∈ joinSep sep xs) : c ∈ sep ∨ ∃ x ∈ xs, c ∈ x := by
  induction xs with
  | nil => simp [joinSep] at hc
  | cons x rest ih =>
    cases rest with
    | nil =>
      rw [show joinSep sep [x] = x from rfl] at hc
      exact Or.inr ⟨x, by simp, hc⟩
    | cons y t =>
      rw [show joinSep sep (x :: y :: t) =
        x ++ sep ++ joinSep sep (y :: t) from rfl] at hc
      rcases List.mem_append.mp hc with h1 | h1
      · rcases List.mem_append.mp h1 with h2 | h2
        · exact Or.inr ⟨x, by simp, h2⟩
        · exact Or.inl h2
      · rcases ih h1 with h2 | ⟨z, hz, hcz⟩
        · exact Or.inl h2
        · exact Or.inr ⟨z, by simp [hz], hcz⟩

theorem morseGroups_supported (s : List Char) (hs : s ≠ [])
    (h : ∀ c ∈ s, c ∈ getSupportedCharacters) :
    morseGroups s = [joinSep (chars (" ")) (s.map codeOf)] := by
  unfold morseGroups
  dsimp only
  rw [map_self_of_eq Char.toUpper s
    (fun c hc => supported_toUpper c (h c hc))]
  rw [splitWs_no_ws s (fun c hc => supported_not_ws c (h c hc))]
  rw [show ([s].map (fun w => w.filterMap MORSE_CODE_MAP)) =
    [s.filterMap MORSE_CODE_MAP] from rfl]
  rw [filterMap_isSome_eq_map s
    (fun c hc => supported_code_isSome c (h c hc))]
  rw [List.filter_cons]
  rw [if_pos (by
    simp only [ne_eq, decide_eq_true_eq]
    intro hmap
    exact hs (List.map_eq_nil_iff.mp hmap))]
  rfl

theorem codes_shape (s : List Char)
    (h : ∀ c ∈ s, c ∈ getSupportedCharacters) :
    ∀ cd ∈ s.map codeOf, cd ≠ [] ∧ ∀ ch ∈ cd, isWs ch = false := by
  intro cd hcd
  obtain ⟨c, hc, rfl⟩ := List.mem_map.mp hcd
  obtain ⟨hne, hshape⟩ := supported_code_shape c (h c hc)
  refine ⟨hne, fun ch hch => ?_⟩
  rcases hshape ch hch with h' | h' <;> subst h' <;> decide

theorem codes_no_slash (s : List Char)
    (h : ∀ c ∈ s, c ∈ getSupportedCharacters) :
    ∀ ch ∈ joinSep (chars (" ")) (s.map codeOf), ch ≠ '/' := by
  intro ch hch
  rcases mem_joinSep _ _ ch hch with h1 | ⟨cd, hcd, hchcd⟩
  · have : ch = ' ' := by simpa [chars] using h1
    subst this; decide
  · obtain ⟨c, hc, rfl⟩ := List.mem_map.mp hcd
    rcases (supported_code_shape c (h c hc)).2 ch hchcd with h' | h' <;>
      subst h' <;> decide

theorem all_map_snd_true {α : Type} (l : List α) :
    ((l.map (fun c => (c, true))).all Prod.snd) = true := by
  induction l with
  | nil => rfl
  | cons a t ih => simp [ih]

theorem decodePiece_joinSep (s : List Char) (hs : s ≠ [])
    (h : ∀ c ∈ s, c ∈ getSupportedCharacters) :
    decodePiece (joinSep (chars (" ")) (s.map codeOf)) = some (s, true) := by
  have hcodes := codes_shape s h
  have hcodesne : s.map codeOf ≠ [] := by
    intro hmap; exact hs (List.map_eq_nil_iff.mp hmap)
  have htok : tokens isWs (trimWs (joinSep (chars (" ")) (s.map codeOf))) =
      s.map codeOf := by
    rw [tokens_trimWs]
    exact tokens_joinSep (s.map codeOf) hcodesne hcodes
  have hwordne : trimWs (joinSep (chars (" ")) (s.map codeOf)) ≠ [] := by
    intro hnil
    rw [hnil] at htok
    exact hcodesne htok.symm
  unfold decodePiece
  rw [if_neg hwordne]
  rw [map_self_of_eq trimWs _ (fun t ht => trimWs_of_no_ws t
    (fun c hc => splitWs_pieces_no_ws _ t ht c hc))]
  rw [filterMap_if_ne_nil decodeSym _]
  rw [splitWs_filter, htok]
  have hdec : (s.map codeOf).map decodeSym = s.map (fun c => (c, true)) := by
    rw [List.map_map]
    apply List.map_congr_left
    intro c hc
    simp only [Function.comp_apply, decodeSym, supported_round c (h c hc)]
  rw [hdec]
  rw [if_neg (by
    intro hmap
    exact hs (List.map_eq_nil_iff.mp hmap))]
  rw [List.map_map, all_map_snd_true]
  congr 1
  rw [show (Prod.fst ∘ fun c : Char => (c, true)) = id from rfl, List.map_id]

/-- Claim C2: for every string composed only of supported characters (keys
of the forward character map, hence no whitespace), translating to Morse
and back yields the uppercasing of the input. -/
theorem translate_round_trip (s : List Char)
    (h : ∀ c ∈ s, c ∈ getSupportedCharacters) :
    ∃ r1 r2, translate (some s) (chars ("toMorse")) = .ok r1 ∧
      translate (some r1.output) (chars ("toText")) = .ok r2 ∧
      r2.output = s.map Char.toUpper := by
  by_cases hs : s = []
  · subst hs
    exact ⟨emptyResult, emptyResult, rfl, rfl, rfl⟩
  · have hup : s.map Char.toUpper = s :=
      map_self_of_eq _ _ (fun c hc => supported_toUpper c (h c hc))
    have htrims : trimWs s = s :=
      trimWs_of_no_ws s (fun c hc => supported_not_ws c (h c hc))
    have hcodesne : s.map codeOf ≠ [] := by
      intro hmap; exact hs (List.map_eq_nil_iff.mp hmap)
    have htoko : tokens isWs
        (trimWs (joinSep (chars (" ")) (s.map codeOf))) = s.map codeOf := by
      rw [tokens_trimWs]
      exact tokens_joinSep (s.map codeOf) hcodesne (codes_shape s h)
    have htrimone : trimWs (joinSep (chars (" ")) (s.map codeOf)) ≠ [] := by
      intro hnil
      rw [hnil] at htoko
      exact hcodesne htoko.symm
    have houtput : (translateToMorse s).output =
        joinSep (chars (" ")) (s.map codeOf) := by
      unfold translateToMorse
      dsimp only
      rw [morseGroups_supported s hs h]
      rfl
    have h1 : translate (some s) (chars ("toMorse")) =
        .ok (translateToMorse s) := by
      unfold translate
      rw [if_neg (by simp)]
      dsimp only [Option.getD]
      rw [htrims, if_neg (by simpa using hs), if_pos (by simp)]
    have h2 : translate (some ((translateToMorse s).output))
        (chars ("toText")) =
        .ok (translateToText (joinSep (chars (" ")) (s.map codeOf))) := by
      rw [houtput]
      unfold translate
      rw [if_neg (by simp)]
      dsimp only [Option.getD]
      rw [if_neg (by simpa using htrimone), if_neg (by decide)]
    have h3 : (translateToText (joinSep (chars (" ")) (s.map codeOf))).output
        = s := by
      unfold translateToText
      dsimp only
      rw [splitChar_no_d '/' _ (codes_no_slash s h)]
      rw [List.filterMap_cons, decodePiece_joinSep s hs h]
      rfl
    exact ⟨translateToMorse s,
      translateToText (joinSep (chars (" ")) (s.map codeOf)), h1, h2,
      by rw [h3, hup]⟩

/-- Witness for claim C2 at the concrete input `"SOS"`. -/
theorem translate_round_trip_witness :
    (∀ c ∈ chars ("SOS"), c ∈ getSupportedCharacters) ∧
    (∃ r1 r2, translate (some (chars ("SOS"))) (chars ("toMorse")) = .ok r1 ∧
      translate (some r1.output) (chars ("toText")) = .ok r2 ∧
      r2.output = (chars ("SOS")).map Char.toUpper) :=
  ⟨by decide, translate_round_trip (chars ("SOS")) (by decide)⟩

/-! ## No-empty-group invariant of `translateToMorse` (claim C9) -/

/-- Absence of two adjacent spaces. -/
def noDbl : List Char → Bool
  | c :: d :: rest => !(c = ' ' && d = ' ') && noDbl (d :: rest)
  | _ => true

theorem noDbl_tail (c : Char) (l : List Char) (h : noDbl (c :: l) = true) :
    noDbl l = true := by
  cases l with
  | nil => rfl
  | cons d r => exact (Bool.and_eq_true_iff.mp h).2

theorem noDbl_cons_of_head (x : Char) (z : List Char)
    (h : ∀ y t, z = y :: t → y ≠ ' ' ∨ x ≠ ' ') (hz : noDbl z = true) :
    noDbl (x :: z) = true := by
  cases z with
  | nil => rfl
  | cons e z' =>
    show (!(x = ' ' && e = ' ') && noDbl (e :: z')) = true
    rcases h e z' rfl with h' | h' <;>
      simp [h', hz]

theorem noDbl_of_no_space (l : List Char) (h : ∀ c ∈ l, c ≠ ' ') :
    noDbl l = true := by
  induction l with
  | nil => rfl
  | cons c r ih =>
    apply noDbl_cons_of_head
    · intro y t hyt
      exact Or.inr (h c (by simp))
    · exact ih (fun b hb => h b (by simp [hb]))

theorem noDbl_append (a b : List Char) (ha : noDbl a = true)
    (hb : noDbl b = true)
    (hbound : ∀ x y t, a.getLast? = some x → b = y :: t →
      ¬(x = ' ' ∧ y = ' ')) : noDbl (a ++ b) = true := by
  induction a with
  | nil => simpa using hb
  | cons c a' ih =>
    cases a' with
    | nil =>
      apply noDbl_cons_of_head
      · intro y t hyt
        by_cases hy : y = ' '
        · right
          intro hc
          exact hbound c y t (by simp) hyt ⟨hc, hy⟩
        · exact Or.inl hy
      · simpa using hb
    | cons e a'' =>
      have hstep : noDbl ((c :: e :: a'') ++ b) =
          (!(c = ' ' && e = ' ') && noDbl ((e :: a'') ++ b)) := rfl
      rw [hstep]
      have h1 : (!(c = ' ' && e = ' ')) = true := by
        have := (Bool.and_eq_true_iff.mp ha).1
        simpa using this
      have h2 : noDbl (e :: a'' ++ b) = true := by
        exact ih (noDbl_tail c (e :: a'') ha)
          (fun x y t hx hyt => hbound x y t (by
            rw [show (c :: e :: a'').getLast? = (e :: a'').getLast? from rfl]
            exact hx) hyt)
      rw [h1, Bool.true_and]
      exact h2

theorem noDbl_no_double_space (l : List Char) (h : noDbl l = true) :
    ∀ s t, l = s ++ ' ' :: ' ' :: t → False := by
  intro s
  induction s generalizing l with
  | nil =>
    intro t hl
    subst hl
    simp [noDbl] at h
  | cons x s' ih =>
    intro t hl
    subst hl
    exact ih (s' ++ ' ' :: ' ' :: t) (noDbl_tail x _ h) t rfl

theorem lookup_mem {α β : Type} [BEq α] [LawfulBEq α]
    (l : List (α × β)) (a : α) (b : β) (h : l.lookup a = some b) :
    ∃ a', (a', b) ∈ l := by
  induction l with
  | nil => simp [List.lookup] at h
  | cons p t ih =>
    rw [show (p :: t).lookup a = if a == p.1 then some p.2 else t.lookup a by
      cases p with
      | mk k v =>
        rw [List.lookup_cons]
        cases hak : a == k <;> simp [hak]] at h
    by_cases hak : (a == p.1) = true
    · rw [if_pos hak] at h
      exact ⟨p.1, by
        have : p.2 = b := by simpa using h
        rw [← this]
        simp⟩
    · rw [if_neg hak] at h
      obtain ⟨a', ha'⟩ := ih h
      exact ⟨a', by simp [ha']⟩

theorem pairs_shape :
    ∀ p ∈ morsePairs, p.2 ≠ [] ∧ ∀ ch ∈ p.2, ch = '.' ∨ ch = '-' := by
  decide

theorem morseGroups_mem (input : List Char) (g : List Char)
    (hg : g ∈ morseGroups input) :
    ∃ codes, g = joinSep (chars (" ")) codes ∧ codes ≠ [] ∧
      ∀ cd ∈ codes, cd ≠ [] ∧ ∀ ch ∈ cd, ch = '.' ∨ ch = '-' := by
  unfold morseGroups at hg
  dsimp only at hg
  obtain ⟨codes, hcodes, rfl⟩ := List.mem_map.mp hg
  have hmem := List.mem_filter.mp hcodes
  obtain ⟨w, _, rfl⟩ := List.mem_map.mp hmem.1
  refine ⟨_, rfl, by simpa using hmem.2, ?_⟩
  intro cd hcd
  obtain ⟨c, _, hlook⟩ := List.mem_filterMap.mp hcd
  obtain ⟨a, hmem'⟩ := lookup_mem morsePairs c cd hlook
  exact pairs_shape (a, cd) hmem'

theorem joinSep_head_prop (sep : List Char) (P : Char → Prop) :
    ∀ xs : List (List Char), xs ≠ [] →
      (∀ g ∈ xs, ∃ x t, g = x :: t ∧ P x) →
      ∃ x, (joinSep sep xs).head? = some x ∧ P x := by
  intro xs
  cases xs with
  | nil => intro h; exact absurd rfl h
  | cons g rest =>
    intro _ hall
    obtain ⟨x, t, hg, hx⟩ := hall g (by simp)
    cases rest with
    | nil => exact ⟨x, by rw [show joinSep sep [g] = g from rfl, hg]; rfl, hx⟩
    | cons g2 rest' =>
      refine ⟨x, ?_, hx⟩
      rw [show joinSep sep (g :: g2 :: rest') =
        g ++ sep ++ joinSep sep (g2 :: rest') from rfl]
      rw [List.append_assoc, List.head?_append, hg]
      rfl

theorem joinSep_last_prop (sep : List Char) (P : Char → Prop) :
    ∀ xs : List (List Char), xs ≠ [] →
      (∀ g ∈ xs, ∃ x, g.getLast? = some x ∧ P x) →
      ∃ x, (joinSep sep xs).getLast? = some x ∧ P x := by
  intro xs
  induction xs with
  | nil => intro h; exact absurd rfl h
  | cons g rest ih =>
    intro _ hall
    cases rest with
    | nil =>
      obtain ⟨x, hg, hx⟩ := hall g (by simp)
      exact ⟨x, by rw [show joinSep sep [g] = g from rfl]; exact hg, hx⟩
    | cons g2 rest' =>
      obtain ⟨x, hx, hPx⟩ := ih (by simp)
        (fun g' hg' => hall g' (by simp [hg']))
      refine ⟨x, ?_, hPx⟩
      rw [show joinSep sep (g :: g2 :: rest') =
        g ++ sep ++ joinSep sep (g2 :: rest') from rfl]
      rw [List.getLast?_append, hx]
      rfl

theorem joinSep_space_noDbl :
    ∀ codes, (∀ cd ∈ codes, cd ≠ [] ∧ ∀ ch ∈ cd, ch = '.' ∨ ch = '-') →
      noDbl (joinSep (chars (" ")) codes) = true := by
  intro codes
  induction codes with
  | nil => intro _; rfl
  | cons cd rest ih =>
    intro h
    have hnospace : ∀ c ∈ cd, c ≠ ' ' := by
      intro c hc
      rcases (h cd (by simp)).2 c hc with h' | h' <;> simp [h']
    cases rest with
    | nil => exact noDbl_of_no_space cd hnospace
    | cons cd2 rest' =>
      rw [show joinSep (chars (" ")) (cd :: cd2 :: rest') =
        cd ++ chars (" ") ++ joinSep (chars (" ")) (cd2 :: rest') from rfl,
        List.append_assoc]
      have hhead := joinSep_head_prop (chars (" "))
        (fun x => x = '.' ∨ x = '-') (cd2 :: rest') (by simp)
        (fun g hg => by
          obtain ⟨hne, hsh⟩ := h g (by simp [hg])
          cases g with
          | nil => exact absurd rfl hne
          | cons x t => exact ⟨x, t, rfl, hsh x (by simp)⟩)
      obtain ⟨y, hy, hydd⟩ := hhead
      apply noDbl_append cd _ (noDbl_of_no_space cd hnospace)
      · show noDbl (' ' :: joinSep (chars (" ")) (cd2 :: rest')) = true
        apply noDbl_cons_of_head
        · intro z t hzt
          left
          rw [hzt] at hy
          have : z = y := by simpa using hy
          subst this
          rcases hydd with h' | h' <;> simp [h']
        · exact ih (fun cd' hcd' => h cd' (by simp [hcd']))
      · intro x y' t hx hyt
        intro ⟨hxsp, _⟩
        exact hnospace x (List.mem_of_mem_getLast? hx) hxsp

theorem group_head_dotdash (input : List Char) (g : List Char)
    (hg : g ∈ morseGroups input) :
    ∃ x t, g = x :: t ∧ (x = '.' ∨ x = '-') := by
  obtain ⟨codes, rfl, hne, hsh⟩ := morseGroups_mem input g hg
  obtain ⟨x, hx, hdd⟩ := joinSep_head_prop (chars (" "))
    (fun x => x = '.' ∨ x = '-') codes hne
    (fun cd hcd => by
      obtain ⟨hcne, hcs⟩ := hsh cd hcd
      cases cd with
      | nil => exact absurd rfl hcne
      | cons x t => exact ⟨x, t, rfl, hcs x (by simp)⟩)
  cases hj : joinSep (chars (" ")) codes with
  | nil => rw [hj] at hx; simp at hx
  | cons a t =>
    rw [hj] at hx
    have : a = x := by simpa using hx
    subst this
    exact ⟨a, t, rfl, hdd⟩

theorem group_last_dotdash (input : List Char) (g : List Char)
    (hg : g ∈ morseGroups input) :
    ∃ x, g.getLast? = some x ∧ (x = '.' ∨ x = '-') := by
  obtain ⟨codes, rfl, hne, hsh⟩ := morseGroups_mem input g hg
  exact joinSep_last_prop (chars (" ")) (fun x => x = '.' ∨ x = '-') codes hne
    (fun cd hcd => by
      obtain ⟨hcne, hcs⟩ := hsh cd hcd
      cases hlast : cd.getLast? with
      | none =>
        rw [List.getLast?_eq_none_iff] at hlast
        exact absurd hlast hcne
      | some x =>
        exact ⟨x, rfl, hcs x (List.mem_of_mem_getLast? hlast)⟩)

theorem group_noDbl (input : List Char) (g : List Char)
    (hg : g ∈ morseGroups input) : noDbl g = true := by
  obtain ⟨codes, rfl, _, hsh⟩ := morseGroups_mem input g hg
  exact joinSep_space_noDbl codes hsh

theorem joinSep_slash_noDbl :
    ∀ groups : List (List Char),
      (∀ g ∈ groups, noDbl g = true ∧ g ≠ [] ∧
        (∀ x t, g = x :: t → x ≠ ' ') ∧
        (∀ x, g.getLast? = some x → x ≠ ' ')) →
      noDbl (joinSep (chars (" / ")) groups) = true := by
  intro groups
  induction groups with
  | nil => intro _; rfl
  | cons g rest ih =>
    intro hprops
    cases rest with
    | nil => exact (hprops g (by simp)).1
    | cons g2 rest' =>
      rw [show joinSep (chars (" / ")) (g :: g2 :: rest') =
        g ++ chars (" / ") ++ joinSep (chars (" / ")) (g2 :: rest') from rfl,
        List.append_assoc]
      obtain ⟨y, hy, hyne⟩ := joinSep_head_prop (chars (" / "))
        (fun x => x ≠ ' ') (g2 :: rest') (by simp)
        (fun g' hg' => by
          obtain ⟨_, hne, hhd, _⟩ := hprops g' (by simp [hg'])
          cases g' with
          | nil => exact absurd rfl hne
          | cons x t => exact ⟨x, t, rfl, hhd x t rfl⟩)
      have hz : noDbl (joinSep (chars (" / ")) (g2 :: rest')) = true :=
        ih (fun g' hg' => hprops g' (by simp [hg']))
      apply noDbl_append g _ (hprops g (by simp)).1
      · show noDbl
          (' ' :: '/' :: ' ' :: joinSep (chars (" / ")) (g2 :: rest')) = true
        apply noDbl_cons_of_head
        · intro z t hzt
          left
          have : z = '/' := (List.cons.inj hzt).1.symm
          simp [this]
        · apply noDbl_cons_of_head
          · intro z t hzt
            right
            simp
          · apply noDbl_cons_of_head
            · intro z t hzt
              left
              rw [hzt] at hy
              have : z = y := by simpa using hy
              subst this
              exact hyne
            · exact hz
      · intro x y' t hx hyt
        intro ⟨hxsp, _⟩
        exact (hprops g (by simp)).2.2.2 x hx hxsp

theorem output_noDbl (input : List Char) :
    noDbl (translateToMorse input).output = true := by
  show noDbl (joinSep (chars (" / ")) (morseGroups input)) = true
  apply joinSep_slash_noDbl
  intro g hg
  refine ⟨group_noDbl input g hg, ?_, ?_, ?_⟩
  · obtain ⟨x, t, hxt, _⟩ := group_head_dotdash input g hg
    rw [hxt]
    simp
  · intro x t hxt
    obtain ⟨x', t', hxt', hdd⟩ := group_head_dotdash input g hg
    rw [hxt'] at hxt
    have : x = x' := (List.cons.inj hxt).1.symm
    subst this
    rcases hdd with h' | h' <;> simp [h']
  · intro x hx
    obtain ⟨x', hx', hdd⟩ := group_last_dotdash input g hg
    rw [hx'] at hx
    have : x = x' := by simpa using hx.symm
    subst this
    rcases hdd with h' | h' <;> simp [h']

theorem output_head_dotdash (input : List Char)
    (hne : morseGroups input ≠ []) :
    ∃ x, (translateToMorse input).output.head? = some x ∧
      (x = '.' ∨ x = '-') := by
  show ∃ x, (joinSep (chars (" / ")) (morseGroups input)).head? = some x ∧ _
  exact joinSep_head_prop _ _ _ hne
    (fun g hg => group_head_dotdash input g hg)

theorem output_last_dotdash (input : List Char)
    (hne : morseGroups input ≠ []) :
    ∃ x, (translateToMorse input).output.getLast? = some x ∧
      (x = '.' ∨ x = '-') := by
  show ∃ x, (joinSep (chars (" / ")) (morseGroups input)).getLast? = some x ∧ _
  exact joinSep_last_prop _ _ _ hne
    (fun g hg => group_last_dotdash input g hg)

/-- Claim C9: the Morse output never contains an empty word group — every
group kept by `translateToMorse` is non-empty, so the output has no leading
`' / '`, no trailing `' / '`, and no two adjacent word separators
(`' /  / '`, which an empty group between two kept groups would produce). -/
theorem toMorse_no_empty_groups (input : List Char) :
    ((morseGroups input).all (fun g => g ≠ []) = true) ∧
    ((chars (" / ")).isPrefixOf (translateToMorse input).output = false) ∧
    ((chars (" / ")).isSuffixOf (translateToMorse input).output = false) ∧
    (decide ((chars (" /  / ")) <:+: (translateToMorse input).output)
      = false) := by
  by_cases hne : morseGroups input = []
  · have hout : (translateToMorse input).output = [] := by
      show joinSep (chars (" / ")) (morseGroups input) = []
      rw [hne]
      rfl
    rw [hout, hne]
    exact ⟨by decide, by decide, by decide, by decide⟩
  · refine ⟨?_, ?_, ?_, ?_⟩
    · rw [List.all_eq_true]
      intro g hg
      obtain ⟨x, t, hxt, _⟩ := group_head_dotdash input g hg
      simp [hxt]
    · obtain ⟨x, hx, hdd⟩ := output_head_dotdash input hne
      cases hp : (chars (" / ")).isPrefixOf (translateToMorse input).output
      · rfl
      · exfalso
        obtain ⟨t, ht⟩ := List.isPrefixOf_iff_prefix.mp hp
        rw [← ht] at hx
        have hsp : x = ' ' := by
          have : (chars (" / ") ++ t).head? = some ' ' := rfl
          rw [this] at hx
          simpa using hx.symm
        subst hsp
        rcases hdd with h' | h' <;> simp at h'
    · obtain ⟨x, hx, hdd⟩ := output_last_dotdash input hne
      cases hs : (chars (" / ")).isSuffixOf (translateToMorse input).output
      · rfl
      · exfalso
        obtain ⟨pre, hpre⟩ := List.isSuffixOf_iff_suffix.mp hs
        rw [← hpre, List.getLast?_append] at hx
        have hsp : x = ' ' := by
          have : (chars (" / ")).getLast? = some ' ' := rfl
          rw [this] at hx
          simpa using hx.symm
        subst hsp
        rcases hdd with h' | h' <;> simp at h'
    · cases hd : decide ((chars (" /  / ")) <:+: (translateToMorse input).output)
      · rfl
      · exfalso
        have hinf : (chars (" /  / ")) <:+: (translateToMorse input).output :=
          of_decide_eq_true hd
        have hsub : (chars ("  ")) <:+: (chars (" /  / ")) := by decide
        obtain ⟨s, t, hst⟩ := hsub.trans hinf
        apply noDbl_no_double_space (translateToMorse input).output
          (output_noDbl input) s t
        rw [← hst, List.append_assoc]
        rfl

/-! ## Properties of the scheduling walk -/

/-- Projection: the `totalSymbolCount` argument of a progress invocation. -/
def progressTotal : PlayEvent → Option ℕ
  | .progress _ n => some n
  | _ => none

/-- Number of tone symbols (dots and dashes) in a sequence. -/
def toneCount (seq : List Char) : ℕ :=
  (seq.filter (fun c => c = '.' || c = '-')).length

/-- Event-list well-formedness: events come in tone/progress pairs, and the
progress invocation of each pair is scheduled exactly at its tone's end
offset (start plus duration). -/
def tonesPaired : List PlayEvent → Bool
  | [] => true
  | .tone s d :: .progress t _ :: rest =>
    decide (t = s + d) && tonesPaired rest
  | _ => false

theorem playSchedule_fold (u : ℚ) (total : ℕ) :
    ∀ (seq : List Char) (st : SchedState),
      (seq.foldl (playStep u total) st).charIndex =
          st.charIndex + toneCount seq ∧
      (seq.foldl (playStep u total) st).events.filterMap progressTotal =
          st.events.filterMap progressTotal ++
            List.replicate (toneCount seq) total := by
  intro seq
  induction seq with
  | nil =>
    intro st
    refine ⟨by simp [toneCount], by simp [toneCount]⟩
  | cons c rest ih =>
    intro st
    rw [List.foldl_cons]
    obtain ⟨ih1, ih3⟩ := ih (playStep u total st c)
    by_cases h1 : c = '.'
    · subst h1
      have hci : (playStep u total st '.').charIndex = st.charIndex + 1 := by
        simp [playStep]
      have hev : (playStep u total st '.').events = st.events ++
          [.tone st.currentTime (MORSE_TIMING.DIT * u),
           .progress (st.currentTime + MORSE_TIMING.DIT * u) total] := by
        simp [playStep]
      have htc : toneCount ('.' :: rest) = toneCount rest + 1 := by
        simp [toneCount, List.filter_cons]
      refine ⟨?_, ?_⟩
      · rw [ih1, hci, htc]; omega
      · rw [ih3, hev, List.filterMap_append, htc,
          show List.filterMap progressTotal
            [PlayEvent.tone st.currentTime (MORSE_TIMING.DIT * u),
             PlayEvent.progress (st.currentTime + MORSE_TIMING.DIT * u)
               total] = [total] from rfl,
          List.replicate_succ, List.append_assoc]
        rfl
    · by_cases h2 : c = '-'
      · subst h2
        have hci : (playStep u total st '-').charIndex = st.charIndex + 1 := by
          simp [playStep]
        have hev : (playStep u total st '-').events = st.events ++
            [.tone st.currentTime (MORSE_TIMING.DAH * u),
             .progress (st.currentTime + MORSE_TIMING.DAH * u) total] := by
          simp [playStep]
        have htc : toneCount ('-' :: rest) = toneCount rest + 1 := by
          simp [toneCount, List.filter_cons]
        refine ⟨?_, ?_⟩
        · rw [ih1, hci, htc]; omega
        · rw [ih3, hev, List.filterMap_append, htc,
            show List.filterMap progressTotal
              [PlayEvent.tone st.currentTime (MORSE_TIMING.DAH * u),
               PlayEvent.progress (st.currentTime + MORSE_TIMING.DAH * u)
                 total] = [total] from rfl,
            List.replicate_succ, List.append_assoc]
          rfl
      · have hci : (playStep u total st c).charIndex = st.charIndex := by
          simp only [playStep, h1, h2, if_false]
          split
          · rfl
          · split <;> rfl
        have hev : (playStep u total st c).events = st.events := by
          simp only [playStep, h1, h2, if_false]
          split
          · rfl
          · split <;> rfl
        have htc : toneCount (c :: rest) = toneCount rest := by
          simp [toneCount, List.filter_cons, h1, h2]
        exact ⟨by rw [ih1, hci, htc], by rw [ih3, hev, htc]⟩

theorem tonesPaired_append_aux :
    ∀ n (a b : List PlayEvent), a.length ≤ n → tonesPaired a = true →
      tonesPaired b = true → tonesPaired (a ++ b) = true := by
  intro n
  induction n with
  | zero =>
    intro a b ha _ hb
    have : a = [] := List.length_eq_zero.mp (Nat.le_zero.mp ha)
    subst this
    simpa using hb
  | succ n ihn =>
    intro a b hlen ha hb
    cases a with
    | nil => simpa using hb
    | cons e1 a1 =>
      cases a1 with
      | nil => cases e1 <;> simp [tonesPaired] at ha
      | cons e2 a' =>
        cases e1 with
        | progress _ _ => simp [tonesPaired] at ha
        | tone s d =>
          cases e2 with
          | tone _ _ => simp [tonesPaired] at ha
          | progress t m =>
            have hstep : tonesPaired (PlayEvent.tone s d ::
                PlayEvent.progress t m :: a') =
                (decide (t = s + d) && tonesPaired a') := rfl
            rw [hstep] at ha
            obtain ⟨ht, ha'⟩ := Bool.and_eq_true_iff.mp ha
            have hgoal : tonesPaired ((PlayEvent.tone s d ::
                PlayEvent.progress t m :: a') ++ b) =
                (decide (t = s + d) && tonesPaired (a' ++ b)) := rfl
            rw [hgoal, ht, Bool.true_and]
            apply ihn a' b ?_ ha' hb
            simp only [List.length_cons] at hlen
            omega

theorem tonesPaired_append (a b : List PlayEvent)
    (ha : tonesPaired a = true) (hb : tonesPaired b = true) :
    tonesPaired (a ++ b) = true :=
  tonesPaired_append_aux a.length a b (Nat.le_refl _) ha hb

theorem playSchedule_fold_paired (u : ℚ) (total : ℕ) :
    ∀ (seq : List Char) (st : SchedState), tonesPaired st.events = true →
      tonesPaired ((seq.foldl (playStep u total) st).events) = true := by
  intro seq
  induction seq with
  | nil => intro st h; simpa using h
  | cons c rest ih =>
    intro st h
    rw [List.foldl_cons]
    apply ih
    by_cases h1 : c = '.'
    · subst h1
      have hev : (playStep u total st '.').events = st.events ++
          [.tone st.currentTime (MORSE_TIMING.DIT * u),
           .progress (st.currentTime + MORSE_TIMING.DIT * u) total] := by
        simp [playStep]
      rw [hev]
      exact tonesPaired_append _ _ h (by simp [tonesPaired])
    · by_cases h2 : c = '-'
      · subst h2
        have hev : (playStep u total st '-').events = st.events ++
            [.tone st.currentTime (MORSE_TIMING.DAH * u),
             .progress (st.currentTime + MORSE_TIMING.DAH * u) total] := by
          simp [playStep]
        rw [hev]
        exact tonesPaired_append _ _ h (by simp [tonesPaired])
      · have hev : (playStep u total st c).events = st.events := by
          simp only [playStep, h1, h2, if_false]
          split
          · rfl
          · split <;> rfl
        rw [hev]
        exact h

/-- Pairing checker for the claim that each progress invocation fires at its
tone's start offset. -/
def progressAtToneStart : List PlayEvent → Bool
  | [] => true
  | .tone s _ :: .progress t _ :: rest =>
    decide (t = s) && progressAtToneStart rest
  | _ => false

/-- The projections of `progressInvocations`: the `totalSymbolCount`
arguments are exactly the totals recorded in the progress events, and the
`symbolIndex` arguments are all equal to the state's (final) `charIndex`,
one per progress event. -/
theorem progressInvocations_props (st : SchedState) :
    (progressInvocations st).map (fun p => p.2.2) =
        st.events.filterMap progressTotal ∧
    (progressInvocations st).map (fun p => p.2.1) =
        List.replicate (st.events.filterMap progressTotal).length
          st.charIndex := by
  obtain ⟨ct, k, evs⟩ := st
  induction evs with
  | nil => exact ⟨rfl, rfl⟩
  | cons e rest ih =>
    obtain ⟨ih1, ih2⟩ := ih
    cases e with
    | tone a b =>
      refine ⟨?_, ?_⟩
      · simpa [progressInvocations, List.filterMap_cons, progressTotal]
          using ih1
      · simpa [progressInvocations, List.filterMap_cons, progressTotal]
          using ih2
    | progress t n =>
      refine ⟨?_, ?_⟩
      · simpa [progressInvocations, List.filterMap_cons, progressTotal]
          using ih1
      · simpa [progressInvocations, List.filterMap_cons, progressTotal,
          List.replicate_succ] using ih2

/-! ## Claim theorems -/

/-- Claim C1 (evidence for the code bug): on the codec's own output format
(`translate("E E") = ". / ."`), the scheduling walk leaves 9 units of
silence between the end of the first word's last tone (offset 3/50 s at the
default 60 ms unit) and the start of the next word's first tone (offset
3/5 s): 1 trailing intra-character unit + 2 for the space before the slash
+ 4 for the slash + 2 for the space after the slash.  The claim (and the
code's own comment `Word gap (7 units total)` plus
`MORSE_TIMING.WORD_GAP = 7`) requires 7 units. -/
theorem word_gap_nine_units_on_codec_format :
    (translateToMorse (chars ("E E"))).output = chars (". / .") ∧
    (playSchedule (chars (". / .")) DEFAULT_CONFIG).events =
      [.tone 0 (3 / 50), .progress (3 / 50) 5,
       .tone (3 / 5) (3 / 50), .progress (33 / 50) 5] ∧
    ((3 : ℚ) / 5 - (0 + 3 / 50) = 9 * (3 / 50)) ∧
    (decide ((9 : ℚ) * (3 / 50) = 7 * (3 / 50)) = false) ∧
    MORSE_TIMING.WORD_GAP = 7 := by
  refine ⟨by decide, ?_, by norm_num, by norm_num, rfl⟩
  rw [show chars (". / .") = ['.', ' ', '/', ' ', '.'] from rfl]
  simp only [playSchedule, List.foldl_cons, List.foldl_nil, playStep]
  simp only [show (' ' = '.') = False by simp,
    show (' ' = '-') = False by simp, show ('/' = '.') = False by simp,
    show ('/' = '-') = False by simp, show ('/' = ' ') = False by simp,
    show ('.' = '.') = True by simp, if_true, if_false]
  norm_num [MORSE_TIMING, DEFAULT_CONFIG]

/-- Claim C3 (evidence for the code bug): the scheduling walk does create
exactly one progress timer per tone symbol, and every invocation receives
`totalSymbolCount` equal to the raw length of the input string — but the
`setTimeout` closure `() => onProgress(charIndex, totalChars)` reads the
mutable `charIndex` binding only when the timer fires, after the
synchronous scheduling loop has finished, so every invocation receives
`symbolIndex` equal to the final tone count N, never the running values
0, 1, …, N−1 the claim requires: on the sequence `". ."` both invocations
receive symbolIndex 2, not `[0, 1]`. -/
theorem progress_callback_reads_final_charIndex :
    (∀ (seq : List Char) (cfg : AudioConfig),
      (progressInvocations (playSchedule seq cfg)).length = toneCount seq ∧
      (progressInvocations (playSchedule seq cfg)).map (fun p => p.2.1) =
        List.replicate (toneCount seq) (toneCount seq) ∧
      (progressInvocations (playSchedule seq cfg)).map (fun p => p.2.2) =
        List.replicate (toneCount seq) seq.length) ∧
    (progressInvocations
        (playSchedule (chars (". .")) DEFAULT_CONFIG)).map
        (fun p => p.2.1) = [2, 2] ∧
    ([2, 2] : List ℕ) ≠ List.range (toneCount (chars (". ."))) := by
  have hgen : ∀ (seq : List Char) (cfg : AudioConfig),
      (progressInvocations (playSchedule seq cfg)).length = toneCount seq ∧
      (progressInvocations (playSchedule seq cfg)).map (fun p => p.2.1) =
        List.replicate (toneCount seq) (toneCount seq) ∧
      (progressInvocations (playSchedule seq cfg)).map (fun p => p.2.2) =
        List.replicate (toneCount seq) seq.length := by
    intro seq cfg
    obtain ⟨h1, h2⟩ := playSchedule_fold (cfg.unitDuration / 1000)
      seq.length seq ⟨0, 0, []⟩
    have hci : (playSchedule seq cfg).charIndex = toneCount seq := by
      rw [show playSchedule seq cfg =
        seq.foldl (playStep (cfg.unitDuration / 1000) seq.length) ⟨0, 0, []⟩
        from rfl, h1]
      exact Nat.zero_add _
    have htot : (playSchedule seq cfg).events.filterMap progressTotal =
        List.replicate (toneCount seq) seq.length := by
      rw [show playSchedule seq cfg =
        seq.foldl (playStep (cfg.unitDuration / 1000) seq.length) ⟨0, 0, []⟩
        from rfl, h2]
      rfl
    obtain ⟨hmapTot, hmapIdx⟩ :=
      progressInvocations_props (playSchedule seq cfg)
    refine ⟨?_, ?_, ?_⟩
    · have hl := congrArg List.length hmapTot
      rw [List.length_map, htot, List.length_replicate] at hl
      exact hl
    · rw [hmapIdx, htot, hci, List.length_replicate]
    · rw [hmapTot, htot]
  refine ⟨hgen, ?_, by decide⟩
  have h := (hgen (chars (". .")) DEFAULT_CONFIG).2.1
  rw [h]
  decide

/-- Claim C4 (evidence for the code bug): on the happy path the only
settlement ever attached to a scheduled session is `resolved` (the
completion `setTimeout` installed by `play`), and `stop()` writes only the
`isPlaying` flag and the scheduled-node list — it neither rejects the
active session's promise nor clears its completion timer, so a stopped or
preempted session's promise still resolves.  The claim (and the repository
contract document, which requires the `play()` promise to reject with
`Error("Playback stopped")` on `stop()`) requires a rejection. -/
theorem stop_never_rejects_play_promise :
    (play true (chars (". .")) DEFAULT_CONFIG =
      .scheduled (playSchedule (chars (". .")) DEFAULT_CONFIG)
        { completionDelayMs := 360, onCompletion := .resolved }) ∧
    (∀ ps, stop ps = { isPlaying := false, scheduledNodes := 0 }) ∧
    (decide (Settle.resolved = .rejected (chars ("Playback stopped")))
      = false) := by
  refine ⟨?_, fun ps => rfl, by decide⟩
  unfold play
  rw [if_neg (by simp), if_neg (by decide)]
  dsimp only
  have hct : (playSchedule (chars (". .")) DEFAULT_CONFIG).currentTime
      = 9 / 25 := by
    rw [show chars (". .") = ['.', ' ', '.'] from rfl]
    simp only [playSchedule, List.foldl_cons, List.foldl_nil, playStep]
    simp only [show (' ' = '.') = False by simp,
      show (' ' = '-') = False by simp, show ('.' = '.') = True by simp,
      if_true, if_false]
    norm_num [MORSE_TIMING, DEFAULT_CONFIG]
  rw [hct]
  norm_num

/-- Claim C5 counterexample: for the played sequence `"."` the single
progress invocation is scheduled at offset 3/50 s — the tone's end — while
its tone starts at offset 0, so the progress callback is not scheduled at
the tone's start. -/
theorem progress_not_at_tone_start :
    (playSchedule (chars (".")) DEFAULT_CONFIG).events =
      [.tone 0 (3 / 50), .progress (3 / 50) 1] ∧
    progressAtToneStart
      (playSchedule (chars (".")) DEFAULT_CONFIG).events = false := by
  have hev : (playSchedule (chars (".")) DEFAULT_CONFIG).events =
      [.tone 0 (3 / 50), .progress (3 / 50) 1] := by
    rw [show chars (".") = ['.'] from rfl]
    simp only [playSchedule, List.foldl_cons, List.foldl_nil, playStep]
    simp only [show ('.' = '.') = True by simp, if_true]
    norm_num [MORSE_TIMING, DEFAULT_CONFIG]
  refine ⟨hev, ?_⟩
  rw [hev]
  show (decide ((3 : ℚ) / 50 = 0) && progressAtToneStart []) = false
  norm_num

/-- Claim C5 (amended): for every played sequence, each progress-callback
invocation is scheduled at the wall-clock offset of its tone's end (tone
start plus tone duration) — the source advances `currentTime` past the
tone before computing the `setTimeout` delay — and in particular not
before scheduling and before the trailing intra-character gap. -/
theorem progress_fires_at_tone_end (seq : List Char) (cfg : AudioConfig) :
    tonesPaired (playSchedule seq cfg).events = true :=
  playSchedule_fold_paired (cfg.unitDuration / 1000) seq.length seq
    ⟨0, 0, []⟩ rfl

/-- Claim C6: `validateMorse` returns true exactly as the specification
describes — non-empty, only dot/dash/whitespace/slash characters, and
either every whitespace/slash-delimited group is a key of the reverse map
(when a space or slash is present) or the undelimited sequence is at most
9 symbols long and not a degenerate run; the three quoted examples
evaluate accordingly. -/
theorem validateMorse_matches_spec :
    (∀ s : List Char, validateMorseStr s = validateMorseSpec s) ∧
    (∀ s : List Char, validateMorse (.vStr s) = validateMorseSpec s) ∧
    validateMorse (.vStr (chars ("..."))) = true ∧
    validateMorse (.vStr (chars (".......")))  = false ∧
    validateMorse (.vStr (chars ("abc"))) = false := by
  refine ⟨validateMorseStr_eq_spec, ?_, by decide, by decide, by decide⟩
  intro s
  cases s with
  | nil => decide
  | cons c t =>
    rw [show validateMorse (.vStr (c :: t)) = validateMorseStr (c :: t) by
      simp [validateMorse, falsy, isStringVal, strVal]]
    exact validateMorseStr_eq_spec (c :: t)

/-- Claim C7: `setSpeed` clamps its argument to [5, 40] (leaving in-range
values unchanged) and stores `1200 / clamped` milliseconds as the unit
duration; `setSpeed(3)` yields the WPM-5 duration and `setSpeed(100)` the
WPM-40 duration. -/
theorem setSpeed_clamps :
    (∀ (cfg : AudioConfig) (wpm : ℚ),
      (setSpeed cfg wpm).unitDuration = 1200 / max 5 (min 40 wpm) ∧
      5 ≤ max 5 (min 40 wpm) ∧ max 5 (min 40 wpm) ≤ 40 ∧
      (5 ≤ wpm → wpm ≤ 40 → max 5 (min 40 wpm) = wpm)) ∧
    (∀ cfg, (setSpeed cfg 3).unitDuration = (setSpeed cfg 5).unitDuration) ∧
    (∀ cfg,
      (setSpeed cfg 100).unitDuration = (setSpeed cfg 40).unitDuration) := by
  refine ⟨?_, ?_, ?_⟩
  · intro cfg wpm
    refine ⟨rfl, le_max_left _ _, ?_, ?_⟩
    · exact max_le (by norm_num) (min_le_left _ _)
    · intro h5 h40
      rw [min_eq_right h40, max_eq_right h5]
  · intro cfg
    show 1200 / max 5 (min 40 (3 : ℚ)) = 1200 / max 5 (min 40 (5 : ℚ))
    norm_num
  · intro cfg
    show 1200 / max 5 (min 40 (100 : ℚ)) = 1200 / max 5 (min 40 (40 : ℚ))
    norm_num

/-- Witness for claim C7: concrete clamped values at WPM 3, 100 and the
in-range value 10. -/
theorem setSpeed_clamps_witness :
    (setSpeed DEFAULT_CONFIG 3).unitDuration = 240 ∧
    (setSpeed DEFAULT_CONFIG 100).unitDuration = 30 ∧
    max 5 (min 40 (10 : ℚ)) = 10 := by
  obtain ⟨h1, _, _⟩ := setSpeed_clamps
  refine ⟨?_, ?_, (h1 DEFAULT_CONFIG 10).2.2.2 (by norm_num) (by norm_num)⟩
  · rw [(h1 DEFAULT_CONFIG 3).1]; norm_num
  · rw [(h1 DEFAULT_CONFIG 100).1]; norm_num

/-- Claim C8: any direction other than `'toMorse'`/`'toText'` makes
`translate` fail with the invalid-direction error, for every input —
including `null`/`undefined` (`none`) and the empty string — because the
direction check precedes the empty-input short-circuit. -/
theorem translate_invalid_direction (input : Option (List Char))
    (direction : List Char) (h1 : direction ≠ chars ("toMorse"))
    (h2 : direction ≠ chars ("toText")) :
    translate input direction = .error .invalidDirection := by
  unfold translate
  rw [if_pos]
  simp only [Bool.and_eq_true, Bool.not_eq_true']
  exact ⟨by simpa using h1, by simpa using h2⟩

/-- Witness for claim C8 at a throwaway direction with `null` input. -/
theorem translate_invalid_direction_witness :
    translate none (chars ("sideways")) = .error .invalidDirection :=
  translate_invalid_direction none (chars ("sideways")) (by decide)
    (by decide)

/-- Claim C10: `validateMorse` is total at the public interface — it is a
total function by construction, and for `null`, `undefined`, the empty
string or any non-string value it returns `false`. -/
theorem validateMorse_non_string_guard (v : JsValue)
    (h : v = .vNull ∨ v = .vUndefined ∨ v = .vStr [] ∨
      isStringVal v = false) :
    validateMorse v = false := by
  rcases h with h | h | h | h
  · subst h; rfl
  · subst h; rfl
  · subst h; rfl
  · unfold validateMorse
    rw [if_pos]
    simp [h]

/-- Witness for claim C10 at `null`, the empty string and a number. -/
theorem validateMorse_non_string_guard_witness :
    validateMorse .vNull = false ∧ validateMorse (.vStr []) = false ∧
    validateMorse (.vNum 7) = false :=
  ⟨validateMorse_non_string_guard .vNull (Or.inl rfl),
   validateMorse_non_string_guard (.vStr []) (Or.inr (Or.inr (Or.inl rfl))),
   validateMorse_non_string_guard (.vNum 7) (Or.inr (Or.inr (Or.inr rfl)))⟩

end Morse
